import Mathlib

/-!
Verification of the Merkle airdrop system (Commitment Builder, Claim Ledger,
Distribution Factory).

The development shallowly embeds:
* `src/front-end/lib/merkle.ts` — the off-ledger Commitment Builder
  (`generateMerkleTree`, built on merkletreejs with `sortPairs: true`);
* `MerkleAirdrop.sol` — the on-ledger Claim Ledger (`claim`,
  `withdrawRemaining`, `isClaimed`, `_setClaimed`, the constructor);
* `AirdropFactory.sol` — the Distribution Factory
  (`createAirdropAndFund`, `createDeterministicAirdropAndFund`).

Modelling conventions:
* `keccak256` is modelled as a perfect (collision-free) hash: digests are
  naturals, the leaf hash `keccak256(abi.encodePacked(index, account, amount))`
  is an injective encoding of the triple tagged even, and the pair hash
  `keccak256(a ++ b)` applied to a canonically ordered pair (merkletreejs
  `sortPairs`, OpenZeppelin `_hashPair`) is an injective encoding of the
  unordered pair tagged odd.  The canonical pair order is numeric comparison,
  exactly as `Buffer.compare` orders 32-byte digests.
* Addresses and uint256 values are naturals; amounts never overflow in the
  scenarios the claims quantify over.
* EVM revert semantics: every mutating entry point returns `Option` —
  `none` means the transaction reverts and the pre-state is kept unchanged.
* The ERC20 token balance held by a ledger instance is the `balance` field;
  `safeTransfer` reverts when the balance is insufficient.  Emitted events
  are accumulated in the `events` field (most recent first).
-/

namespace Airdrop

/-! ### Hash model -/

/-- Leaf hash: `keccak256(abi.encodePacked(index, account, amount))`, modelled
as an injective even-tagged encoding of the triple
(`MerkleAirdrop.sol` line 573, `merkle.ts` lines 43-50). -/
def hashLeaf (index account amount : Nat) : Nat :=
  2 * Nat.pair index (Nat.pair account amount)

/-- Internal node hash of a canonically ordered pair: merkletreejs with
`sortPairs: true` sorts the two children by numeric (byte-wise) comparison
before hashing, and OpenZeppelin `MerkleProof._hashPair` does the same;
modelled as an injective odd-tagged encoding of the unordered pair. -/
def hashNode (x y : Nat) : Nat :=
  2 * Nat.pair (min x y) (max x y) + 1

/-- OpenZeppelin `MerkleProof.processProof`: fold the proof siblings upward
from the leaf, hashing each canonically ordered pair. -/
def processProof (proof : List Nat) (leaf : Nat) : Nat :=
  proof.foldl hashNode leaf

/-- OpenZeppelin `MerkleProof.verify(proof, root, leaf)`. -/
def verify (proof : List Nat) (root leaf : Nat) : Bool :=
  processProof proof leaf == root

/-! ### merkletreejs tree construction (`sortPairs: true`, odd nodes carried
up unchanged, leaves taken in insertion order and not rehashed) -/

/-- One level of merkletreejs `createHashes`: adjacent pairs are combined
with the sorted-pair hash; an odd trailing node is carried up unchanged. -/
def upLevel : List Nat → List Nat
  | [] => []
  | [x] => [x]
  | x :: y :: rest => hashNode x y :: upLevel rest

theorem upLevel_length (l : List Nat) : (upLevel l).length = (l.length + 1) / 2 := by
  match l with
  | [] => simp [upLevel]
  | [x] => simp [upLevel]
  | x :: y :: rest =>
    simp only [upLevel, List.length_cons, upLevel_length rest]
    omega

/-- Root of the merkletreejs tree: iterate `upLevel` until a single digest
remains (`tree.getRoot()`; the empty tree returns the artificial digest 0). -/
def buildRoot (l : List Nat) : Nat :=
  match l with
  | [] => 0
  | [x] => x
  | x :: y :: rest => buildRoot (upLevel (x :: y :: rest))
termination_by l.length
decreasing_by
  simp only [upLevel_length, List.length_cons]
  omega

/-- merkletreejs `getProof`, walking the layers from an element position:
at each level the sibling (position `i ^ 1`, when it exists) is appended and
the position is halved; an odd trailing node contributes no sibling. -/
def genProof (l : List Nat) (i : Nat) : List Nat :=
  match l with
  | [] => []
  | [_] => []
  | x :: y :: rest =>
    (match (x :: y :: rest)[if i % 2 = 0 then i + 1 else i - 1]? with
     | some s => [s]
     | none => []) ++ genProof (upLevel (x :: y :: rest)) (i / 2)
termination_by l.length
decreasing_by
  simp only [upLevel_length, List.length_cons]
  omega

/-! ### Commitment Builder (`merkle.ts`) -/

/-- One allocation row as the Builder receives it (`AirdropData`):
a dense index, a recipient address and a token amount. -/
structure Alloc where
  index : Nat
  account : Nat
  amount : Nat
deriving DecidableEq, Repr

/-- Leaf hash of one allocation (`merkle.ts` lines 43-50). -/
def leafOf (a : Alloc) : Nat := hashLeaf a.index a.account a.amount

/-- Leaves in insertion order (`merkle.ts` line 43: `airdropData.map`). -/
def leavesOf (l : List Alloc) : List Nat := l.map leafOf

/-- Root produced by `generateMerkleTree` (`merkle.ts` lines 53-54). -/
def generateRoot (l : List Alloc) : Nat := buildRoot (leavesOf l)

/-- One entry of the published claims blob (`ClaimData` in `merkle.ts`). -/
structure ClaimData where
  index : Nat
  account : Nat
  amount : Nat
  proof : List Nat
deriving DecidableEq, Repr

/-- Per-allocation proofs produced by `generateMerkleTree`
(`merkle.ts` lines 57-72): `tree.getHexProof(leaf)` locates the first
occurrence of the leaf among the leaves and walks the layers from there. -/
def generateClaims (l : List Alloc) : List ClaimData :=
  l.map fun a =>
    { index := a.index, account := a.account, amount := a.amount,
      proof := genProof (leavesOf l) ((leavesOf l).indexOf (leafOf a)) }

/-- Total committed amount (`createClaimsData`, `merkle.ts` lines 89-92). -/
def sumAmounts (l : List Alloc) : Nat := (l.map Alloc.amount).sum

/-- Ingestion step `handleFileUpload` (`create/page.tsx` lines 67-91):
rows that survive the missing-field filter are assigned dense indices
0..N-1 in row order; each row is (address, amount). -/
def pipelineAllocs (rows : List (Nat × Nat)) : List Alloc :=
  rows.enum.map fun p => { index := p.1, account := p.2.1, amount := p.2.2 }

/-! ### Claim Ledger (`MerkleAirdrop.sol`) -/

/-- Events emitted by a ledger instance. -/
inductive Event where
  | claimed (index account amount : Nat)
  | withdrawn (dest amount : Nat)
deriving DecidableEq, Repr

/-- State of one deployed `MerkleAirdrop` instance.  The first seven fields
are set by the constructor and have no update path (they are `immutable` in
the source); only `claimedBitMap`, `balance` and the event log mutate. -/
structure Ledger where
  token : Nat
  owner : Nat
  merkleRoot : Nat
  metadataURI : String
  totalAmount : Nat
  claimDeadline : Nat
  unlockTimestamp : Nat
  claimedBitMap : Nat → Nat
  balance : Nat
  events : List Event

/-- `isClaimed(index)` (`MerkleAirdrop.sol` lines 630-636). -/
def isClaimed (s : Ledger) (index : Nat) : Bool :=
  let wordIndex := index / 256
  let bitIndex := index % 256
  let word := s.claimedBitMap wordIndex
  let mask := 1 <<< bitIndex
  word &&& mask == mask

/-- `_setClaimed(index)` (`MerkleAirdrop.sol` lines 642-646). -/
def setClaimed (s : Ledger) (index : Nat) : Ledger :=
  { s with claimedBitMap := fun w =>
      if w = index / 256
      then s.claimedBitMap w ||| (1 <<< (index % 256))
      else s.claimedBitMap w }

/-- `claim(index, account, amount, merkleProof)` (`MerkleAirdrop.sol`
lines 562-584) called at time `nowTime` by `msgSender`; `none` is a revert.
The guards appear in source order: the `notExpired` modifier, the
self-custody check, the bitmap check, the positive-amount check and the
proof check; then the bit is set and `safeTransfer` pays the account
(reverting when the held balance is insufficient). -/
def claim (s : Ledger) (nowTime msgSender index account amount : Nat)
    (merkleProof : List Nat) : Option Ledger :=
  if ¬ nowTime ≤ s.claimDeadline then none
  else if ¬ account = msgSender then none
  else if isClaimed s index then none
  else if ¬ 0 < amount then none
  else if ¬ verify merkleProof s.merkleRoot (hashLeaf index account amount) then none
  else if amount ≤ s.balance then
    let marked := setClaimed s index
    some { marked with
           balance := s.balance - amount,
           events := Event.claimed index account amount :: s.events }
  else none

/-- `withdrawRemaining()` (`MerkleAirdrop.sol` lines 602-609) called at time
`nowTime` by `msgSender`: the `onlyOwner` and `canWithdraw` modifiers, the
positive-balance check, then the whole balance is transferred to the owner. -/
def withdrawRemaining (s : Ledger) (nowTime msgSender : Nat) : Option Ledger :=
  if ¬ msgSender = s.owner then none
  else if ¬ s.unlockTimestamp ≤ nowTime then none
  else if ¬ 0 < s.balance then none
  else some { s with
              balance := 0,
              events := Event.withdrawn s.owner s.balance :: s.events }

/-- The `MerkleAirdrop` constructor (`MerkleAirdrop.sol` lines 524-553) run
at time `nowTime`: zero-address and zero-value guards (including the
`Ownable` zero-owner guard), then both the claim deadline and the unlock
timestamp are set to `block.timestamp + 7 days`.  The instance starts with
zero balance; the factory funds it afterwards in the same transaction. -/
def mkLedger (nowTime tokenAddr ownerAddr root : Nat) (uri : String)
    (total : Nat) : Option Ledger :=
  if tokenAddr = 0 then none
  else if ownerAddr = 0 then none
  else if root = 0 then none
  else if total = 0 then none
  else some {
    token := tokenAddr, owner := ownerAddr, merkleRoot := root,
    metadataURI := uri, totalAmount := total,
    claimDeadline := nowTime + 7 * 86400,
    unlockTimestamp := nowTime + 7 * 86400,
    claimedBitMap := fun _ => 0, balance := 0, events := [] }

/-! ### Distribution Factory (`AirdropFactory.sol`) -/

/-- The `AirdropCreated` record (`AirdropFactory.sol` lines 31-39). -/
structure CreationRecord where
  creator : Nat
  token : Nat
  merkleRoot : Nat
  metadataURI : String
  timestamp : Nat
  totalAmount : Nat
deriving DecidableEq, Repr

/-- `createAirdropAndFund(token, merkleRoot, metadataURI, totalAmount)`
(`AirdropFactory.sol` lines 58-90): input guards, direct deployment of a new
`MerkleAirdrop`, then `safeTransferFrom(msg.sender, airdrop, totalAmount)` —
which reverts unless the caller holds and has approved at least `totalAmount`
— and the `AirdropCreated` record.  A revert anywhere undoes everything. -/
def createAirdropAndFund (nowTime msgSender tokenAddr root : Nat) (uri : String)
    (total callerBalance callerAllowance : Nat) : Option (Ledger × CreationRecord) :=
  if tokenAddr = 0 then none
  else if root = 0 then none
  else if total = 0 then none
  else match mkLedger nowTime tokenAddr msgSender root uri total with
    | none => none
    | some led =>
      if total ≤ callerBalance ∧ total ≤ callerAllowance then
        some ({ led with balance := led.balance + total },
              { creator := msgSender, token := tokenAddr, merkleRoot := root,
                metadataURI := uri, timestamp := nowTime, totalAmount := total })
      else none

/-- `createDeterministicAirdropAndFund(salt, token, merkleRoot, metadataURI,
totalAmount)` (`AirdropFactory.sol` lines 109-142): the salt parameter is
commented out in the source and the body repeats `createAirdropAndFund`
verbatim (direct `new MerkleAirdrop`, no CREATE2). -/
def createDeterministicAirdropAndFund (salt : Nat) (nowTime msgSender tokenAddr root : Nat)
    (uri : String) (total callerBalance callerAllowance : Nat) :
    Option (Ledger × CreationRecord) :=
  if tokenAddr = 0 then none
  else if root = 0 then none
  else if total = 0 then none
  else match mkLedger nowTime tokenAddr msgSender root uri total with
    | none => none
    | some led =>
      if total ≤ callerBalance ∧ total ≤ callerAllowance then
        some ({ led with balance := led.balance + total },
              { creator := msgSender, token := tokenAddr, merkleRoot := root,
                metadataURI := uri, timestamp := nowTime, totalAmount := total })
      else none

/-! ### Operational steps on a ledger instance -/

/-- One successful mutating transaction on a ledger instance. -/
inductive Step : Ledger → Ledger → Prop
  | claimStep (s s' : Ledger) (t c i a m : Nat) (p : List Nat) :
      claim s t c i a m p = some s' → Step s s'
  | withdrawStep (s s' : Ledger) (t c : Nat) :
      withdrawRemaining s t c = some s' → Step s s'

/-- Reachability through any sequence of successful transactions. -/
inductive Reach : Ledger → Ledger → Prop
  | refl (s : Ledger) : Reach s s
  | tail {s s' s'' : Ledger} : Reach s s' → Step s' s'' → Reach s s''

/-- Reachability through successful `claim` transactions only (the ledger
still holds the committed funding, less what claims have paid out). -/
inductive ClaimReach : Ledger → Ledger → Prop
  | refl (s : Ledger) : ClaimReach s s
  | tail {s s' s'' : Ledger} (t c i a m : Nat) (p : List Nat) :
      ClaimReach s s' → claim s' t c i a m p = some s'' → ClaimReach s s''

/-! ### Hash-model basic lemmas -/

theorem hashNode_comm (x y : Nat) : hashNode x y = hashNode y x := by
  unfold hashNode
  rw [min_comm, max_comm]

theorem hashNode_odd (x y : Nat) : hashNode x y % 2 = 1 := by
  unfold hashNode
  omega

theorem hashLeaf_even (i a m : Nat) : hashLeaf i a m % 2 = 0 := by
  unfold hashLeaf
  omega

theorem hashLeaf_inj {i a m j b n : Nat} (h : hashLeaf i a m = hashLeaf j b n) :
    i = j ∧ a = b ∧ m = n := by
  unfold hashLeaf at h
  have h2 : Nat.pair i (Nat.pair a m) = Nat.pair j (Nat.pair b n) := by omega
  have h3 := Nat.pair_eq_pair.mp h2
  have h4 := Nat.pair_eq_pair.mp h3.2
  exact ⟨h3.1, h4.1, h4.2⟩

theorem processProof_cons (p : Nat) (ps : List Nat) (leaf : Nat) :
    processProof (p :: ps) leaf = processProof ps (hashNode leaf p) := rfl

theorem processProof_odd (proof : List Nat) (leaf : Nat) (h : proof ≠ []) :
    processProof proof leaf % 2 = 1 := by
  induction proof generalizing leaf with
  | nil => exact absurd rfl h
  | cons p ps ih =>
    rw [processProof_cons]
    cases ps with
    | nil => simpa [processProof] using hashNode_odd leaf p
    | cons q qs => exact ih (hashNode leaf p) (by simp)

/-! ### Soundness: Builder-produced proofs verify against the Builder root -/

theorem upLevel_getElem? (l : List Nat) (j : Nat) :
    (upLevel l)[j]? =
      match l[2 * j]?, l[2 * j + 1]? with
      | some a, some b => some (hashNode a b)
      | some a, none => some a
      | none, _ => none := by
  match l with
  | [] => simp [upLevel]
  | [x] =>
    match j with
    | 0 => simp [upLevel]
    | j + 1 =>
      have h2 : 2 * (j + 1) = 2 * j + 1 + 1 := by omega
      simp [upLevel, h2]
  | x :: y :: rest =>
    match j with
    | 0 => simp [upLevel]
    | j + 1 =>
      have h2 : 2 * (j + 1) = 2 * j + 1 + 1 := by omega
      rw [h2]
      simp only [upLevel, List.getElem?_cons_succ]
      exact upLevel_getElem? rest j

theorem upLevel_get_pair (l : List Nat) (i : Nat) (h : i < l.length) (s : Nat)
    (hs : l[if i % 2 = 0 then i + 1 else i - 1]? = some s) :
    (upLevel l)[i / 2]? = some (hashNode l[i] s) := by
  rw [upLevel_getElem?]
  rcases Nat.even_or_odd i with he | ho
  · have hmod : i % 2 = 0 := Nat.even_iff.mp he
    rw [if_pos hmod] at hs
    have e1 : 2 * (i / 2) = i := by omega
    rw [e1, List.getElem?_eq_getElem h, hs]
  · have hmod : i % 2 = 1 := Nat.odd_iff.mp ho
    have hmod0 : ¬ i % 2 = 0 := by omega
    rw [if_neg hmod0] at hs
    have e1 : 2 * (i / 2) = i - 1 := by omega
    rw [e1]
    have e2 : i - 1 + 1 = i := by omega
    rw [e2, List.getElem?_eq_getElem h, hs]
    simp [hashNode_comm]

theorem upLevel_get_carry (l : List Nat) (i : Nat) (h : i < l.length)
    (hs : l[if i % 2 = 0 then i + 1 else i - 1]? = none) :
    (upLevel l)[i / 2]? = some l[i] := by
  rcases Nat.even_or_odd i with he | ho
  · have hmod : i % 2 = 0 := Nat.even_iff.mp he
    rw [if_pos hmod] at hs
    rw [upLevel_getElem?]
    have e1 : 2 * (i / 2) = i := by omega
    rw [e1, List.getElem?_eq_getElem h, hs]
  · exfalso
    have hmod : i % 2 = 1 := Nat.odd_iff.mp ho
    have hmod0 : ¬ i % 2 = 0 := by omega
    rw [if_neg hmod0] at hs
    have hlt : i - 1 < l.length := by omega
    rw [List.getElem?_eq_getElem hlt] at hs
    exact Option.some_ne_none _ hs

theorem buildRoot_cons2 (x y : Nat) (rest : List Nat) :
    buildRoot (x :: y :: rest) = buildRoot (upLevel (x :: y :: rest)) := by
  rw [buildRoot]

theorem genProof_cons2 (x y : Nat) (rest : List Nat) (i : Nat) :
    genProof (x :: y :: rest) i =
      (match (x :: y :: rest)[if i % 2 = 0 then i + 1 else i - 1]? with
       | some s => [s]
       | none => []) ++ genProof (upLevel (x :: y :: rest)) (i / 2) := by
  rw [genProof]

theorem processProof_genProof (l : List Nat) (i : Nat) (h : i < l.length) :
    processProof (genProof l i) l[i] = buildRoot l := by
  match l with
  | [] => simp at h
  | [x] =>
    have hi : i = 0 := by
      simp only [List.length_singleton] at h
      omega
    subst hi
    simp [genProof, processProof, buildRoot]
  | x :: y :: rest =>
    have hhalf : i / 2 < (upLevel (x :: y :: rest)).length := by
      rw [upLevel_length]
      simp only [List.length_cons] at h ⊢
      omega
    have ih := processProof_genProof (upLevel (x :: y :: rest)) (i / 2) hhalf
    rw [genProof_cons2, buildRoot_cons2]
    cases hcase : (x :: y :: rest)[if i % 2 = 0 then i + 1 else i - 1]? with
    | some s =>
      have hup := upLevel_get_pair (x :: y :: rest) i h s hcase
      have hval : (upLevel (x :: y :: rest))[i / 2] = hashNode (x :: y :: rest)[i] s := by
        rw [List.getElem?_eq_getElem hhalf] at hup
        exact Option.some.inj hup
      rw [← ih, hval]
      simp [processProof]
    | none =>
      have hup := upLevel_get_carry (x :: y :: rest) i h hcase
      have hval : (upLevel (x :: y :: rest))[i / 2] = (x :: y :: rest)[i] := by
        rw [List.getElem?_eq_getElem hhalf] at hup
        exact Option.some.inj hup
      rw [← ih, hval]
      simp
termination_by l.length
decreasing_by
  simp only [upLevel_length, List.length_cons]
  omega

theorem builder_proof_valid (l : List Alloc) (a : Alloc) (ha : a ∈ l) :
    verify (genProof (leavesOf l) ((leavesOf l).indexOf (leafOf a)))
      (generateRoot l) (leafOf a) = true := by
  have hmem : leafOf a ∈ leavesOf l := List.mem_map_of_mem leafOf ha
  have hidx : (leavesOf l).indexOf (leafOf a) < (leavesOf l).length :=
    List.indexOf_lt_length.mpr hmem
  have hget := List.getElem_indexOf hidx
  have := processProof_genProof (leavesOf l) ((leavesOf l).indexOf (leafOf a)) hidx
  rw [hget] at this
  simp [verify, generateRoot, this]

/-! ### Completeness: only committed leaves verify against the Builder root.
In the perfect-hash model a digest decomposes uniquely, so we can speak of
the set of digests occurring in the tree below a given digest. -/

/-- Decidable subterm relation on digests: `leaf` occurs in the tree whose
top digest is `x` (an odd digest decomposes uniquely into its two children). -/
def inTreeB (leaf x : Nat) : Bool :=
  if leaf = x then true
  else if h : x % 2 = 1 then
    inTreeB leaf (Nat.unpair (x / 2)).1 || inTreeB leaf (Nat.unpair (x / 2)).2
  else false
termination_by x
decreasing_by
  · have h1 := Nat.unpair_left_le (x / 2)
    omega
  · have h1 := Nat.unpair_right_le (x / 2)
    omega

theorem inTreeB_self (x : Nat) : inTreeB x x = true := by
  rw [inTreeB]
  simp

theorem hashNode_children (a b : Nat) :
    Nat.unpair (hashNode a b / 2) = (min a b, max a b) := by
  have h : hashNode a b / 2 = Nat.pair (min a b) (max a b) := by
    unfold hashNode
    omega
  rw [h, Nat.unpair_pair]

theorem inTreeB_left (a b : Nat) : inTreeB a (hashNode a b) = true := by
  rw [inTreeB]
  rcases eq_or_ne a (hashNode a b) with he | hne
  · simp [← he]
  · rw [if_neg hne, dif_pos (hashNode_odd a b), hashNode_children]
    rcases le_total a b with hab | hba
    · simp [min_eq_left hab, inTreeB_self]
    · simp [max_eq_left hba, inTreeB_self]

theorem inTreeB_node_elim {leaf a b : Nat} (h : inTreeB leaf (hashNode a b) = true) :
    leaf = hashNode a b ∨ inTreeB leaf a = true ∨ inTreeB leaf b = true := by
  rw [inTreeB] at h
  rcases eq_or_ne leaf (hashNode a b) with he | hne
  · exact Or.inl he
  · right
    rw [if_neg hne, dif_pos (hashNode_odd a b), hashNode_children] at h
    simp only [Bool.or_eq_true] at h
    rcases le_total a b with hab | hba
    · rwa [min_eq_left hab, max_eq_right hab] at h
    · rw [min_eq_right hba, max_eq_left hba] at h
      exact h.symm

theorem inTreeB_even_elim {leaf x : Nat} (hx : x % 2 = 0)
    (h : inTreeB leaf x = true) : leaf = x := by
  rw [inTreeB] at h
  rcases eq_or_ne leaf x with he | hne
  · exact he
  · rw [if_neg hne, dif_neg (by omega)] at h
    exact absurd h (by simp)

theorem inTreeB_trans {a b c : Nat} (hbc : inTreeB b c = true)
    (hab : inTreeB a b = true) : inTreeB a c = true := by
  induction c using Nat.strong_induction_on with
  | _ c ih =>
    rw [inTreeB] at hbc
    rcases eq_or_ne b c with he | hne
    · exact he ▸ hab
    · rw [if_neg hne] at hbc
      by_cases hodd : c % 2 = 1
      · rw [dif_pos hodd] at hbc
        simp only [Bool.or_eq_true] at hbc
        have h1 := Nat.unpair_left_le (c / 2)
        have h2 := Nat.unpair_right_le (c / 2)
        have hrec : inTreeB a (Nat.unpair (c / 2)).1 = true ∨
            inTreeB a (Nat.unpair (c / 2)).2 = true := by
          rcases hbc with hl | hr
          · exact Or.inl (ih _ (by omega) hl)
          · exact Or.inr (ih _ (by omega) hr)
        rw [inTreeB]
        rcases eq_or_ne a c with hac | hac
        · simp [hac]
        · rw [if_neg hac, dif_pos hodd]
          simp only [Bool.or_eq_true]
          exact hrec
      · rw [dif_neg hodd] at hbc
        exact absurd hbc (by simp)

theorem verify_inTree {proof : List Nat} {leaf root : Nat}
    (h : processProof proof leaf = root) : inTreeB leaf root = true := by
  induction proof generalizing leaf with
  | nil => exact h ▸ inTreeB_self leaf
  | cons p ps ih =>
    rw [processProof_cons] at h
    exact inTreeB_trans (ih h) (inTreeB_left leaf p)

theorem upLevel_mem {l : List Nat} {x : Nat} (hx : x ∈ upLevel l) :
    x ∈ l ∨ ∃ a ∈ l, ∃ b ∈ l, x = hashNode a b := by
  match l with
  | [] => simp [upLevel] at hx
  | [z] =>
    simp only [upLevel] at hx
    exact Or.inl hx
  | z :: w :: rest =>
    simp only [upLevel, List.mem_cons] at hx
    rcases hx with he | hx
    · exact Or.inr ⟨z, by simp, w, by simp, he⟩
    · rcases upLevel_mem hx with h1 | ⟨a, ha, b, hb, he⟩
      · exact Or.inl (by simp [h1])
      · exact Or.inr ⟨a, by simp [ha], b, by simp [hb], he⟩

theorem inTree_buildRoot (l : List Nat) (hne : l ≠ []) (leaf : Nat)
    (hleaf : leaf % 2 = 0) (h : inTreeB leaf (buildRoot l) = true) :
    ∃ x ∈ l, inTreeB leaf x = true := by
  match l with
  | [] => exact absurd rfl hne
  | [x] => exact ⟨x, by simp, by simpa [buildRoot] using h⟩
  | x :: y :: rest =>
    rw [buildRoot_cons2] at h
    have hup : upLevel (x :: y :: rest) ≠ [] := by
      have := upLevel_length (x :: y :: rest)
      intro hcon
      rw [hcon] at this
      simp only [List.length_nil, List.length_cons] at this
      omega
    obtain ⟨z, hz, hinz⟩ := inTree_buildRoot (upLevel (x :: y :: rest)) hup leaf hleaf h
    rcases upLevel_mem hz with h1 | ⟨a, ha, b, hb, he⟩
    · exact ⟨z, h1, hinz⟩
    · subst he
      rcases inTreeB_node_elim hinz with he | hl | hr
      · exfalso
        have := hashNode_odd a b
        omega
      · exact ⟨a, ha, hl⟩
      · exact ⟨b, hb, hr⟩
termination_by l.length
decreasing_by
  simp only [upLevel_length, List.length_cons]
  omega

theorem verify_complete {l : List Nat} (hne : l ≠ []) (hev : ∀ x ∈ l, x % 2 = 0)
    {leaf : Nat} (hleaf : leaf % 2 = 0) {proof : List Nat}
    (h : processProof proof leaf = buildRoot l) : leaf ∈ l := by
  obtain ⟨x, hx, hin⟩ := inTree_buildRoot l hne leaf hleaf (verify_inTree h)
  have := inTreeB_even_elim (hev x hx) hin
  exact this ▸ hx

/-- Any claim tuple that passes the on-ledger proof check against a
Builder-produced root is one of the committed allocations. -/
theorem verify_committed {l : List Alloc} (hne : l ≠ []) {i a m : Nat}
    {proof : List Nat}
    (h : verify proof (generateRoot l) (hashLeaf i a m) = true) :
    (⟨i, a, m⟩ : Alloc) ∈ l := by
  have hfold : processProof proof (hashLeaf i a m) = buildRoot (leavesOf l) := by
    simpa [verify, generateRoot] using h
  have hnel : leavesOf l ≠ [] := by
    simpa [leavesOf] using hne
  have hev : ∀ x ∈ leavesOf l, x % 2 = 0 := by
    intro x hx
    obtain ⟨b, _, hb⟩ := List.mem_map.mp hx
    exact hb ▸ hashLeaf_even b.index b.account b.amount
  have hmem := verify_complete hnel hev (hashLeaf_even i a m) hfold
  obtain ⟨b, hbmem, hbeq⟩ := List.mem_map.mp hmem
  obtain ⟨h1, h2, h3⟩ := hashLeaf_inj hbeq
  have : b = ⟨i, a, m⟩ := by
    cases b
    simp only at h1 h2 h3
    simp [h1, h2, h3]
  exact this ▸ hbmem

/-! ### Claimed-bitmap lemmas -/

theorem isClaimed_eq_testBit (s : Ledger) (i : Nat) :
    isClaimed s i = (s.claimedBitMap (i / 256)).testBit (i % 256) := by
  unfold isClaimed
  simp only [Nat.shiftLeft_eq, one_mul, Nat.and_two_pow]
  cases h : (s.claimedBitMap (i / 256)).testBit (i % 256) with
  | false =>
    simp only [h, Bool.toNat_false, zero_mul]
    have : (0 : Nat) ≠ 2 ^ (i % 256) := by positivity
    simp [this]
  | true => simp [h]

theorem isClaimed_setClaimed_self (s : Ledger) (i : Nat) :
    isClaimed (setClaimed s i) i = true := by
  rw [isClaimed_eq_testBit]
  unfold setClaimed
  simp only [if_pos rfl, Nat.shiftLeft_eq, one_mul, Nat.testBit_lor]
  simp [Nat.testBit_two_pow_self]

theorem isClaimed_setClaimed_of_ne (s : Ledger) {i j : Nat} (h : j ≠ i) :
    isClaimed (setClaimed s i) j = isClaimed s j := by
  rw [isClaimed_eq_testBit, isClaimed_eq_testBit]
  unfold setClaimed
  simp only
  by_cases hw : j / 256 = i / 256
  · rw [if_pos hw, Nat.shiftLeft_eq, one_mul, Nat.testBit_lor]
    have hb : i % 256 ≠ j % 256 := by omega
    rw [Nat.testBit_two_pow_of_ne hb]
    simp
  · rw [if_neg hw]

theorem isClaimed_setClaimed_mono (s : Ledger) {i j : Nat}
    (h : isClaimed s j = true) : isClaimed (setClaimed s i) j = true := by
  rcases eq_or_ne j i with he | hne
  · exact he ▸ isClaimed_setClaimed_self s i
  · rw [isClaimed_setClaimed_of_ne s hne]
    exact h

/-! ### Characterization of the mutating entry points -/

/-- Post-state of a successful `claim` (bit set before `safeTransfer`, then
the transfer and the `Claimed` record). -/
def claimResult (s : Ledger) (index account amount : Nat) : Ledger :=
  let marked := setClaimed s index
  { marked with
    balance := s.balance - amount,
    events := Event.claimed index account amount :: s.events }

theorem claim_eq_some_iff {s : Ledger} {t c i a m : Nat} {p : List Nat} {s2 : Ledger} :
    claim s t c i a m p = some s2 ↔
      t ≤ s.claimDeadline ∧ a = c ∧ isClaimed s i = false ∧ 0 < m ∧
      verify p s.merkleRoot (hashLeaf i a m) = true ∧ m ≤ s.balance ∧
      s2 = claimResult s i a m := by
  constructor
  · intro h
    unfold claim at h
    split_ifs at h with h1 h2 h3 h4 h5 h6
    refine ⟨h1, h2, by simpa using h3, h4, h5, h6, ?_⟩
    unfold claimResult
    exact (Option.some.inj h).symm
  · rintro ⟨h1, h2, h3, h4, h5, h6, h7⟩
    unfold claim
    rw [if_neg (fun hc => hc h1), if_neg (fun hc => hc h2),
      if_neg (by simp [h3]), if_neg (fun hc => hc h4),
      if_neg (fun hc => hc h5), if_pos h6, h7]
    rfl

theorem claim_none_of_claimed {s : Ledger} {t c i a m : Nat} {p : List Nat}
    (h : isClaimed s i = true) : claim s t c i a m p = none := by
  cases hc : claim s t c i a m p with
  | none => rfl
  | some s2 =>
    obtain ⟨-, -, hfalse, -⟩ := claim_eq_some_iff.mp hc
    rw [h] at hfalse
    exact absurd hfalse (by simp)

/-- Post-state of a successful `withdrawRemaining`. -/
def withdrawResult (s : Ledger) : Ledger :=
  { s with
    balance := 0,
    events := Event.withdrawn s.owner s.balance :: s.events }

theorem withdrawRemaining_eq_some_iff {s : Ledger} {t c : Nat} {s2 : Ledger} :
    withdrawRemaining s t c = some s2 ↔
      c = s.owner ∧ s.unlockTimestamp ≤ t ∧ 0 < s.balance ∧ s2 = withdrawResult s := by
  constructor
  · intro h
    unfold withdrawRemaining at h
    split_ifs at h with h1 h2 h3
    refine ⟨h1, h2, h3, ?_⟩
    unfold withdrawResult
    exact (Option.some.inj h).symm
  · rintro ⟨h1, h2, h3, h4⟩
    unfold withdrawRemaining
    rw [if_neg (fun hc => hc h1), if_neg (fun hc => hc h2),
      if_neg (fun hc => hc h3), h4]
    rfl

/-! ### Immutable fields and bitmap monotonicity along executions -/

theorem step_immutable {s s2 : Ledger} (h : Step s s2) :
    s2.token = s.token ∧ s2.owner = s.owner ∧ s2.merkleRoot = s.merkleRoot ∧
    s2.metadataURI = s.metadataURI ∧ s2.totalAmount = s.totalAmount ∧
    s2.claimDeadline = s.claimDeadline ∧ s2.unlockTimestamp = s.unlockTimestamp := by
  cases h with
  | claimStep t c i a m p hc =>
    obtain ⟨-, -, -, -, -, -, he⟩ := claim_eq_some_iff.mp hc
    subst he
    simp [claimResult, setClaimed]
  | withdrawStep t c hw =>
    obtain ⟨-, -, -, he⟩ := withdrawRemaining_eq_some_iff.mp hw
    subst he
    simp [withdrawResult]

theorem reach_immutable {s s2 : Ledger} (h : Reach s s2) :
    s2.token = s.token ∧ s2.owner = s.owner ∧ s2.merkleRoot = s.merkleRoot ∧
    s2.metadataURI = s.metadataURI ∧ s2.totalAmount = s.totalAmount ∧
    s2.claimDeadline = s.claimDeadline ∧ s2.unlockTimestamp = s.unlockTimestamp := by
  induction h with
  | refl => simp
  | tail hr hs ih =>
    obtain ⟨a1, a2, a3, a4, a5, a6, a7⟩ := ih
    obtain ⟨b1, b2, b3, b4, b5, b6, b7⟩ := step_immutable hs
    exact ⟨b1.trans a1, b2.trans a2, b3.trans a3, b4.trans a4, b5.trans a5,
      b6.trans a6, b7.trans a7⟩

theorem step_claimed_mono {s s2 : Ledger} (h : Step s s2) {j : Nat}
    (hj : isClaimed s j = true) : isClaimed s2 j = true := by
  cases h with
  | claimStep t c i a m p hc =>
    obtain ⟨-, -, -, -, -, -, he⟩ := claim_eq_some_iff.mp hc
    subst he
    have hsame : isClaimed (claimResult s i a m) j = isClaimed (setClaimed s i) j := by
      rw [isClaimed_eq_testBit, isClaimed_eq_testBit]
      simp [claimResult, setClaimed]
    rw [hsame]
    exact isClaimed_setClaimed_mono s hj
  | withdrawStep t c hw =>
    obtain ⟨-, -, -, he⟩ := withdrawRemaining_eq_some_iff.mp hw
    subst he
    have hsame : isClaimed (withdrawResult s) j = isClaimed s j := by
      rw [isClaimed_eq_testBit, isClaimed_eq_testBit]
      simp [withdrawResult]
    rw [hsame]
    exact hj

theorem reach_claimed_mono {s s2 : Ledger} (h : Reach s s2) {j : Nat}
    (hj : isClaimed s j = true) : isClaimed s2 j = true := by
  induction h with
  | refl => exact hj
  | tail hr hs ih => exact step_claimed_mono hs ih

theorem claimReach_reach {s s2 : Ledger} (h : ClaimReach s s2) : Reach s s2 := by
  induction h with
  | refl => exact Reach.refl _
  | tail t c i a m p hr hc ih => exact Reach.tail ih (Step.claimStep _ _ t c i a m p hc)

/-! ### Conservation: a Builder-funded ledger always covers its unclaimed
allocations while only claims have run -/

/-- Sum of the amounts of the allocations whose bitmap bit is still unset. -/
def unclaimedSum (s : Ledger) (l : List Alloc) : Nat :=
  (l.map fun a => if isClaimed s a.index then 0 else a.amount).sum

theorem isClaimed_congr {s1 s2 : Ledger}
    (h : s1.claimedBitMap = s2.claimedBitMap) (j : Nat) :
    isClaimed s1 j = isClaimed s2 j := by
  rw [isClaimed_eq_testBit, isClaimed_eq_testBit, h]

theorem unclaimedSum_congr {s1 s2 : Ledger}
    (h : s1.claimedBitMap = s2.claimedBitMap) (l : List Alloc) :
    unclaimedSum s1 l = unclaimedSum s2 l := by
  unfold unclaimedSum
  congr 1
  exact List.map_congr_left fun a _ => by rw [isClaimed_congr h]

theorem amount_le_unclaimedSum {A : List Alloc} {a : Alloc} (ha : a ∈ A)
    (s : Ledger) (hun : isClaimed s a.index = false) :
    a.amount ≤ unclaimedSum s A := by
  induction A with
  | nil => simp at ha
  | cons b A ih =>
    unfold unclaimedSum at ih ⊢
    rcases List.mem_cons.mp ha with he | hmem
    · subst he
      have hif : (if isClaimed s a.index = true then 0 else a.amount) = a.amount := by
        rw [hun]
        simp
      simp only [List.map_cons, List.sum_cons, hif]
      omega
    · have := ih hmem
      simp only [List.map_cons, List.sum_cons]
      omega

theorem unclaimedSum_setClaimed {A : List Alloc}
    (hP : A.Pairwise fun a b => a.index ≠ b.index) {i a m : Nat}
    (hmem : (⟨i, a, m⟩ : Alloc) ∈ A) (s : Ledger)
    (hun : isClaimed s i = false) :
    unclaimedSum (setClaimed s i) A + m = unclaimedSum s A := by
  induction A with
  | nil => simp at hmem
  | cons b A ih =>
    have hPt : A.Pairwise fun a b => a.index ≠ b.index := (List.pairwise_cons.mp hP).2
    have hPh : ∀ c ∈ A, b.index ≠ c.index := (List.pairwise_cons.mp hP).1
    unfold unclaimedSum at ih ⊢
    simp only [List.map_cons, List.sum_cons]
    rcases List.mem_cons.mp hmem with he | hmem2
    · have hbi : b.index = i := by rw [← he]
      have hbm : b.amount = m := by rw [← he]
      have hrest : ∀ c ∈ A, isClaimed (setClaimed s i) c.index = isClaimed s c.index := by
        intro c hc
        refine isClaimed_setClaimed_of_ne s ?_
        have := hPh c hc
        omega
      have hmap : A.map (fun c => if isClaimed (setClaimed s i) c.index = true then 0 else c.amount) =
          A.map (fun c => if isClaimed s c.index = true then 0 else c.amount) :=
        List.map_congr_left fun c hc => by rw [hrest c hc]
      have h1 : (if isClaimed (setClaimed s i) b.index = true then 0 else b.amount) = 0 := by
        rw [hbi, isClaimed_setClaimed_self]
        simp
      have h2 : (if isClaimed s b.index = true then 0 else b.amount) = m := by
        rw [hbi, hun]
        simp [hbm]
      rw [h1, h2, hmap]
      omega
    · have hbne : b.index ≠ i := hPh ⟨i, a, m⟩ hmem2
      have h3 : isClaimed (setClaimed s i) b.index = isClaimed s b.index :=
        isClaimed_setClaimed_of_ne s hbne
      rw [h3]
      have := ih hPt hmem2
      omega

/-- The funding invariant: the ledger carries the Builder root and its held
balance is exactly the total amount of the still-unclaimed allocations. -/
def FundsCommitted (A : List Alloc) (s : Ledger) : Prop :=
  s.merkleRoot = generateRoot A ∧ s.balance = unclaimedSum s A

theorem claim_preserves_fundsCommitted {A : List Alloc} (hne : A ≠ [])
    (hP : A.Pairwise fun a b => a.index ≠ b.index)
    {s s2 : Ledger} (hinv : FundsCommitted A s)
    {t c i a m : Nat} {p : List Nat} (hc : claim s t c i a m p = some s2) :
    FundsCommitted A s2 := by
  obtain ⟨-, -, hunc, -, hver, hbal, he⟩ := claim_eq_some_iff.mp hc
  obtain ⟨hroot, hfund⟩ := hinv
  have hmem : (⟨i, a, m⟩ : Alloc) ∈ A := by
    rw [hroot] at hver
    exact verify_committed hne hver
  subst he
  constructor
  · simpa [claimResult, setClaimed] using hroot
  · have hbit : (claimResult s i a m).claimedBitMap = (setClaimed s i).claimedBitMap := by
      simp [claimResult]
    have hsum := unclaimedSum_setClaimed hP hmem s hunc
    rw [unclaimedSum_congr hbit A]
    have hbal2 : (claimResult s i a m).balance = s.balance - m := by
      simp [claimResult]
    omega

theorem claimReach_preserves_fundsCommitted {A : List Alloc} (hne : A ≠ [])
    (hP : A.Pairwise fun a b => a.index ≠ b.index)
    {s0 s : Ledger} (h0 : FundsCommitted A s0) (hr : ClaimReach s0 s) :
    FundsCommitted A s := by
  induction hr with
  | refl => exact h0
  | tail t c i a m p hr hc ih => exact claim_preserves_fundsCommitted hne hP ih hc

/-! ### The front-end ingestion pipeline assigns dense, distinct indices -/

theorem pipelineAllocs_mem {rows : List (Nat × Nat)} {a : Alloc}
    (ha : a ∈ pipelineAllocs rows) :
    a.index < rows.length ∧ rows[a.index]? = some (a.account, a.amount) := by
  unfold pipelineAllocs at ha
  obtain ⟨⟨i, r⟩, hmem, he⟩ := List.mem_map.mp ha
  obtain ⟨hlt, hr⟩ := List.mem_enum hmem
  have hidx : a.index = i := by rw [← he]
  have hacc : a.account = r.1 := by rw [← he]
  have hamt : a.amount = r.2 := by rw [← he]
  refine ⟨hidx ▸ hlt, ?_⟩
  rw [hidx, List.getElem?_eq_getElem hlt, ← hr, hacc, hamt]

theorem pipelineAllocs_map_index (rows : List (Nat × Nat)) :
    (pipelineAllocs rows).map Alloc.index = List.range rows.length := by
  unfold pipelineAllocs
  rw [List.map_map]
  have : (Alloc.index ∘ fun p : Nat × Nat × Nat => Alloc.mk p.1 p.2.1 p.2.2) = Prod.fst := by
    funext p
    rfl
  rw [this]
  exact List.enum_map_fst rows

theorem pipelineAllocs_pairwise (rows : List (Nat × Nat)) :
    (pipelineAllocs rows).Pairwise fun a b => a.index ≠ b.index := by
  have h := (List.nodup_range rows.length)
  rw [← pipelineAllocs_map_index rows] at h
  exact List.pairwise_map.mp h

/-! ### Creation-path lemmas -/

theorem createAirdropAndFund_eq_some {nowTime msgSender tokenAddr root : Nat}
    {uri : String} {total cb al : Nat} {led : Ledger} {rec : CreationRecord}
    (h : createAirdropAndFund nowTime msgSender tokenAddr root uri total cb al
      = some (led, rec)) :
    led.token = tokenAddr ∧ led.owner = msgSender ∧ led.merkleRoot = root ∧
    led.metadataURI = uri ∧ led.totalAmount = total ∧
    led.claimDeadline = nowTime + 7 * 86400 ∧
    led.unlockTimestamp = nowTime + 7 * 86400 ∧
    led.balance = total ∧ (∀ j, isClaimed led j = false) ∧
    tokenAddr ≠ 0 ∧ msgSender ≠ 0 ∧ root ≠ 0 ∧ 0 < total ∧
    total ≤ cb ∧ total ≤ al ∧
    rec = { creator := msgSender, token := tokenAddr, merkleRoot := root,
            metadataURI := uri, timestamp := nowTime, totalAmount := total } := by
  unfold createAirdropAndFund mkLedger at h
  split_ifs at h with h1 h2 h3 h4 h5
  simp only [Option.some.injEq, Prod.mk.injEq] at h
  obtain ⟨hled, hrec⟩ := h
  subst hled
  refine ⟨rfl, rfl, rfl, rfl, rfl, rfl, rfl, by simp, ?_, h1, h4, h2, by omega,
    h5.1, h5.2, hrec.symm⟩
  intro j
  rw [isClaimed_eq_testBit]
  simp [Nat.zero_testBit]

theorem createAirdropAndFund_none_of_funding {nowTime msgSender tokenAddr root : Nat}
    {uri : String} {total cb al : Nat} (h : cb < total ∨ al < total) :
    createAirdropAndFund nowTime msgSender tokenAddr root uri total cb al = none := by
  unfold createAirdropAndFund mkLedger
  split_ifs <;> first | rfl | (exfalso; omega)

/-! ### Small-tree evaluation lemmas and remaining helpers -/

theorem buildRoot_nil : buildRoot [] = 0 := by
  simp [buildRoot]

theorem buildRoot_single (a : Nat) : buildRoot [a] = a := by
  simp [buildRoot]

theorem buildRoot_pair (a b : Nat) : buildRoot [a, b] = hashNode a b := by
  rw [buildRoot_cons2]
  simp only [upLevel]
  exact buildRoot_single (hashNode a b)

theorem buildRoot_triple (a b c : Nat) :
    buildRoot [a, b, c] = hashNode (hashNode a b) c := by
  rw [buildRoot_cons2]
  simp only [upLevel]
  exact buildRoot_pair (hashNode a b) c

theorem genProof_single (a : Nat) (i : Nat) : genProof [a] i = [] := by
  simp [genProof]

theorem genProof_pair_zero (a b : Nat) : genProof [a, b] 0 = [b] := by
  rw [genProof_cons2]
  simp only [upLevel]
  simp [genProof_single]

theorem genProof_triple_two (a b c : Nat) :
    genProof [a, b, c] 2 = [hashNode a b] := by
  rw [genProof_cons2]
  simp only [upLevel]
  rw [genProof_cons2]
  simp only [upLevel]
  simp [genProof_single]

theorem genProof_triple_zero (a b c : Nat) :
    genProof [a, b, c] 0 = [b, c] := by
  rw [genProof_cons2]
  simp only [upLevel]
  rw [genProof_cons2]
  simp only [upLevel]
  simp [genProof_single]

theorem unclaimedSum_all_fresh {s : Ledger} (h : ∀ j, isClaimed s j = false)
    (l : List Alloc) : unclaimedSum s l = sumAmounts l := by
  unfold unclaimedSum sumAmounts
  congr 1
  refine List.map_congr_left fun a _ => ?_
  rw [h a.index]
  simp

theorem isClaimed_claimResult_self (s : Ledger) (i a m : Nat) :
    isClaimed (claimResult s i a m) i = true := by
  have hb : (claimResult s i a m).claimedBitMap = (setClaimed s i).claimedBitMap := by
    simp [claimResult]
  rw [isClaimed_congr hb]
  exact isClaimed_setClaimed_self s i

theorem generateRoot_nil : generateRoot [] = 0 := by
  simp [generateRoot, leavesOf, buildRoot_nil]

/-! ### Proof-length bound -/

theorem genProof_length_le (l : List Nat) (i : Nat) :
    (genProof l i).length ≤ Nat.clog 2 l.length := by
  match l with
  | [] => simp [genProof]
  | [x] => simp [genProof]
  | x :: y :: rest =>
    have hup : (upLevel (x :: y :: rest)).length = (rest.length + 3) / 2 := by
      rw [upLevel_length]
      simp only [List.length_cons]
    have ih := genProof_length_le (upLevel (x :: y :: rest)) (i / 2)
    rw [hup] at ih
    have hclog : Nat.clog 2 (x :: y :: rest).length
        = Nat.clog 2 ((rest.length + 3) / 2) + 1 := by
      have h2 := Nat.clog_of_two_le (b := 2) (n := (x :: y :: rest).length)
        (by norm_num) (by simp)
      rw [h2]
      congr 2
    rw [genProof_cons2, hclog]
    cases hcase : (x :: y :: rest)[if i % 2 = 0 then i + 1 else i - 1]? with
    | some s =>
      simp only [hcase, List.length_append, List.length_cons, List.length_nil]
      omega
    | none =>
      simp only [hcase, List.length_append, List.length_nil]
      omega
termination_by l.length
decreasing_by
  simp only [upLevel_length, List.length_cons]
  omega

/-! ### Claim theorems -/

/-- C2: bitmap monotonicity and no double-spend.  Along any sequence of
successful transactions (`claim` or `withdrawRemaining`) a set bit of the
claimed-bitmap stays set, and from any state in which bit `i` is set every
`claim` call for index `i` — any time, any caller, any account, any amount,
any proof — is rejected (returns `none`, so the state is unchanged). -/
theorem claim2_no_double_spend (s s2 : Ledger) (h : Reach s s2) (i : Nat)
    (hset : isClaimed s i = true) :
    isClaimed s2 i = true ∧
    ∀ t c a m p, claim s2 t c i a m p = none :=
  ⟨reach_claimed_mono h hset,
   fun _ _ _ _ _ => claim_none_of_claimed (reach_claimed_mono h hset)⟩

/-- Ledger state with bit 0 of the claimed-bitmap set, used as a concrete
instantiation point. -/
def w2Ledger : Ledger :=
  { token := 1, owner := 9, merkleRoot := 2450, metadataURI := "",
    totalAmount := 5, claimDeadline := 604800, unlockTimestamp := 604800,
    claimedBitMap := fun _ => 1, balance := 5, events := [] }

/-- Witness for C2 at a concrete state with bit 0 set. -/
theorem claim2_witness :
    isClaimed w2Ledger 0 = true ∧
    ∀ t c a m p, claim w2Ledger t c 0 a m p = none :=
  claim2_no_double_spend w2Ledger w2Ledger (Reach.refl _) 0 (by rfl)

/-- C3: time-lock integrity of reclaim.  `withdrawRemaining` fails for every
caller — the owner included — whenever the current time is strictly before
the unlock time; called by the owner at or after the unlock time with a
positive held balance it succeeds, transfers the entire remaining balance to
the owner (the `Withdrawn` record) and leaves the ledger balance zero. -/
theorem claim3_timelock (s : Ledger) :
    (∀ t c, t < s.unlockTimestamp → withdrawRemaining s t c = none) ∧
    (∀ t, s.unlockTimestamp ≤ t → 0 < s.balance →
      withdrawRemaining s t s.owner = some (withdrawResult s) ∧
      (withdrawResult s).balance = 0 ∧
      (withdrawResult s).events = Event.withdrawn s.owner s.balance :: s.events) := by
  constructor
  · intro t c hlt
    cases hw : withdrawRemaining s t c with
    | none => rfl
    | some s2 =>
      obtain ⟨-, h2, -⟩ := withdrawRemaining_eq_some_iff.mp hw
      omega
  · intro t h1 h2
    exact ⟨withdrawRemaining_eq_some_iff.mpr ⟨rfl, h1, h2, rfl⟩, rfl, rfl⟩

/-- Ledger state with positive balance, used as a concrete instantiation
point for the time-lock theorem. -/
def w3Ledger : Ledger :=
  { token := 1, owner := 9, merkleRoot := 2450, metadataURI := "",
    totalAmount := 5, claimDeadline := 604800, unlockTimestamp := 604800,
    claimedBitMap := fun _ => 0, balance := 5, events := [] }

/-- Witness for C3: before the unlock time the owner is refused; at the
unlock time the owner drains the balance. -/
theorem claim3_witness :
    withdrawRemaining w3Ledger 10 9 = none ∧
    (withdrawRemaining w3Ledger 604800 9 = some (withdrawResult w3Ledger) ∧
      (withdrawResult w3Ledger).balance = 0 ∧
      (withdrawResult w3Ledger).events =
        Event.withdrawn w3Ledger.owner w3Ledger.balance :: w3Ledger.events) :=
  ⟨(claim3_timelock w3Ledger).1 10 9 (by decide),
   (claim3_timelock w3Ledger).2 604800 (by decide) (by decide)⟩

/-- C4 (amended): claim guard characterization.  A `claim(index, account,
amount, proof)` call at time `t` by caller `c` succeeds if and only if
`c = account`, `t` is at or before the claim deadline, bit `index` is unset,
`amount` is positive, folding the proof siblings upward from
`hash(index, account, amount)` reproduces the stored root, **and the held
balance covers `amount`** (the token transfer reverts otherwise); in every
other case the call is rejected with no state change (`none` models the
revert). -/
theorem claim4_guard_characterization (s : Ledger) (t c i a m : Nat) (p : List Nat) :
    (∃ s2, claim s t c i a m p = some s2) ↔
      t ≤ s.claimDeadline ∧ a = c ∧ isClaimed s i = false ∧ 0 < m ∧
      verify p s.merkleRoot (hashLeaf i a m) = true ∧ m ≤ s.balance := by
  constructor
  · rintro ⟨s2, h⟩
    obtain ⟨h1, h2, h3, h4, h5, h6, -⟩ := claim_eq_some_iff.mp h
    exact ⟨h1, h2, h3, h4, h5, h6⟩
  · rintro ⟨h1, h2, h3, h4, h5, h6⟩
    exact ⟨claimResult s i a m, claim_eq_some_iff.mpr ⟨h1, h2, h3, h4, h5, h6, rfl⟩⟩

/-- Underfunded ledger produced by the factory for the committed singleton
list `[(5, 5)]` (allocation of 5 units to address 5) but funded with total 1:
the creator chooses `totalAmount` independently of the committed amounts. -/
def cexLedger4 : Ledger :=
  { token := 1, owner := 9, merkleRoot := 2450, metadataURI := "",
    totalAmount := 1, claimDeadline := 604800, unlockTimestamp := 604800,
    claimedBitMap := fun _ => 0, balance := 1, events := [] }

/-- Creation record paired with `cexLedger4`. -/
def cexRecord4 : CreationRecord :=
  { creator := 9, token := 1, merkleRoot := 2450, metadataURI := "",
    timestamp := 0, totalAmount := 1 }

/-- Root of the committed singleton list `[(5, 5)]`. -/
theorem cex4root : generateRoot (pipelineAllocs [(5, 5)]) = 2450 := by
  show buildRoot (leavesOf (pipelineAllocs [(5, 5)])) = 2450
  rw [show leavesOf (pipelineAllocs [(5, 5)]) = [2450] from rfl, buildRoot_single]

/-- C4 counterexample: on a reachable (factory-created) ledger all five
conditions named by the claim hold — time at or before the deadline, caller
equals account, bit unset, positive amount, proof folds to the stored
root — yet the call is rejected, because the held balance (1) does not
cover the amount (5).  The claim's `iff` is therefore false as stated. -/
theorem claim4_counterexample :
    createAirdropAndFund 0 9 1 (generateRoot (pipelineAllocs [(5, 5)])) "" 1 1 1 =
      some (cexLedger4, cexRecord4) ∧
    ((0 : Nat) ≤ cexLedger4.claimDeadline ∧ (5 : Nat) = 5 ∧
      isClaimed cexLedger4 0 = false ∧ (0 : Nat) < 5 ∧
      verify [] cexLedger4.merkleRoot (hashLeaf 0 5 5) = true) ∧
    claim cexLedger4 0 5 0 5 5 [] = none := by
  refine ⟨?_, ⟨Nat.zero_le _, rfl, rfl, by decide, rfl⟩, rfl⟩
  rw [cex4root]
  rfl

/-- C5: atomic creation.  Whenever `createAirdropAndFund` returns an
instance, that instance carries exactly the requested root, token and total,
its held balance equals the full total (funded from the caller in the same
transaction), and the `AirdropCreated` record is produced; whenever the
funding transfer cannot complete (caller balance or approval below the
total) the whole call reverts and no instance exists. -/
theorem claim5_atomic_creation (nowTime msgSender tokenAddr root : Nat)
    (uri : String) (total cb al : Nat) :
    (∀ led rec,
      createAirdropAndFund nowTime msgSender tokenAddr root uri total cb al =
        some (led, rec) →
      led.token = tokenAddr ∧ led.owner = msgSender ∧ led.merkleRoot = root ∧
      led.totalAmount = total ∧ led.balance = total ∧
      rec = { creator := msgSender, token := tokenAddr, merkleRoot := root,
              metadataURI := uri, timestamp := nowTime, totalAmount := total }) ∧
    (cb < total ∨ al < total →
      createAirdropAndFund nowTime msgSender tokenAddr root uri total cb al = none) := by
  constructor
  · intro led rec h
    obtain ⟨e1, e2, e3, -, e5, -, -, e8, -, -, -, -, -, -, -, e16⟩ :=
      createAirdropAndFund_eq_some h
    exact ⟨e1, e2, e3, e5, e8, e16⟩
  · exact createAirdropAndFund_none_of_funding

/-- Witness for C5: with caller balance 2 below the total 3, creation
reverts and no ledger is observable. -/
theorem claim5_witness :
    createAirdropAndFund 0 9 1 5 "" 3 2 9 = none :=
  (claim5_atomic_creation 0 9 1 5 "" 3 2 9).2 (Or.inl (by decide))

/-- C10: the deterministic creation path is the same operation.  For every
salt and every argument tuple, `createDeterministicAirdropAndFund` performs
exactly the creation-and-funding of `createAirdropAndFund`; the salt has no
effect on the result (the source comments the parameter out and repeats the
direct `new MerkleAirdrop` deployment, with no CREATE2). -/
theorem claim10_deterministic_path_equiv (salt nowTime msgSender tokenAddr root : Nat)
    (uri : String) (total cb al : Nat) :
    createDeterministicAirdropAndFund salt nowTime msgSender tokenAddr root uri
      total cb al =
    createAirdropAndFund nowTime msgSender tokenAddr root uri total cb al := rfl

/-- Three-allocation list used to exhibit order dependence of the Builder. -/
def permListA : List Alloc := [⟨0, 1, 1⟩, ⟨1, 2, 1⟩, ⟨2, 3, 1⟩]

/-- The reversal of `permListA` — the same allocation set, re-ordered. -/
def permListB : List Alloc := [⟨2, 3, 1⟩, ⟨1, 2, 1⟩, ⟨0, 1, 1⟩]

/-- C6 counterexample: `permListB` is a permutation of `permListA`, yet the
Builder roots differ.  merkletreejs with `sortPairs: true` sorts each
sibling pair before hashing but keeps the leaves in insertion order, so the
grouping into pairs — and with three leaves, which leaf is carried up —
depends on the input order. -/
theorem claim6_counterexample :
    permListA.Perm permListB ∧ generateRoot permListA ≠ generateRoot permListB := by
  constructor
  · decide
  · have hA : generateRoot permListA = 802963423 := by
      show buildRoot (leavesOf permListA) = 802963423
      rw [show leavesOf permListA = [18, 100, 342] from rfl, buildRoot_triple]
      rfl
    have hB : generateRoot permListB = 109632777319 := by
      show buildRoot (leavesOf permListB) = 109632777319
      rw [show leavesOf permListB = [342, 100, 18] from rfl, buildRoot_triple]
      rfl
    rw [hA, hB]
    decide

/-- C6 (amended): the pair at each level is canonically ordered — the
combining step is commutative in its two children — so the root of a
two-allocation list is invariant under swapping the pair; but the root is a
function of the ordered allocation list, and for three or more allocations a
permutation can change it (see the counterexample). -/
theorem claim6_canonical_pair_order (x y : Alloc) :
    generateRoot [x, y] = generateRoot [y, x] ∧
    ∀ u v : Nat, hashNode u v = hashNode v u := by
  constructor
  · show buildRoot (leavesOf [x, y]) = buildRoot (leavesOf [y, x])
    rw [show leavesOf [x, y] = [leafOf x, leafOf y] from rfl,
      show leavesOf [y, x] = [leafOf y, leafOf x] from rfl,
      buildRoot_pair, buildRoot_pair, hashNode_comm]
  · exact hashNode_comm

/-- Ceiling base-2 logarithm of 3, computed through the recursion lemma
(`Nat.clog` is defined by well-founded recursion and does not reduce). -/
theorem clog_two_three : Nat.clog 2 3 = 2 := by
  have h22 : Nat.clog 2 2 = 1 := Nat.clog_eq_one (by norm_num) (by norm_num)
  rw [Nat.clog_of_two_le (by norm_num) (by norm_num)]
  norm_num [h22]

/-- C7 counterexample: for the three-leaf committed list `permListA`
(`N = 3`, so `ceil(log2 N) = 2`) the Builder proof for the allocation at
index 2 — the odd leaf carried up one level unpaired — has length 1, not 2. -/
theorem claim7_counterexample :
    permListA.length = 3 ∧ Nat.clog 2 3 = 2 ∧
    (generateClaims permListA)[2]? = some ⟨2, 3, 1, [20037]⟩ ∧
    ¬ ((⟨2, 3, 1, [20037]⟩ : ClaimData).proof.length = Nat.clog 2 permListA.length) := by
  refine ⟨rfl, clog_two_three, ?_, ?_⟩
  · have h1 : generateClaims permListA =
        [⟨0, 1, 1, genProof [18, 100, 342] 0⟩, ⟨1, 2, 1, genProof [18, 100, 342] 1⟩,
         ⟨2, 3, 1, genProof [18, 100, 342] 2⟩] := rfl
    rw [h1, genProof_triple_two]
    rfl
  · rw [show permListA.length = 3 from rfl, clog_two_three]
    decide

/-- C7 (amended): every proof the Builder produces for an allocation of a
committed list of `N` allocations has length **at most** `ceil(log2 N)`;
leaves paired at every level reach the bound, while an odd leaf carried up
unpaired at some level yields a shorter proof. -/
theorem claim7_proof_length_bound (l : List Alloc) (cd : ClaimData)
    (hcd : cd ∈ generateClaims l) :
    cd.proof.length ≤ Nat.clog 2 l.length := by
  obtain ⟨a, ha, he⟩ := List.mem_map.mp hcd
  have hp : cd.proof = genProof (leavesOf l) ((leavesOf l).indexOf (leafOf a)) := by
    rw [← he]
  rw [hp]
  have hb := genProof_length_le (leavesOf l) ((leavesOf l).indexOf (leafOf a))
  simpa [leavesOf] using hb

/-- Witness for C7 at the first allocation of `permListA`. -/
theorem claim7_witness :
    (⟨0, 1, 1, [100, 342]⟩ : ClaimData).proof.length ≤ Nat.clog 2 permListA.length :=
  claim7_proof_length_bound permListA ⟨0, 1, 1, [100, 342]⟩ (by
    rw [show generateClaims permListA =
      [⟨0, 1, 1, genProof [18, 100, 342] 0⟩, ⟨1, 2, 1, genProof [18, 100, 342] 1⟩,
       ⟨2, 3, 1, genProof [18, 100, 342] 2⟩] from rfl, genProof_triple_zero]
    simp)

/-- C8 counterexample: the Builder does not reject a list containing a
non-positive amount: for the single-row upload `(address 7, amount 0)` the
ingestion step keeps the row, and `generateMerkleTree` produces a root and a
proof for the zero-amount allocation instead of rejecting the input. -/
theorem claim8_counterexample :
    pipelineAllocs [(7, 0)] = [⟨0, 7, 0⟩] ∧
    generateClaims [⟨0, 7, 0⟩] = [⟨0, 7, 0, []⟩] ∧
    generateRoot [⟨0, 7, 0⟩] = hashLeaf 0 7 0 := by
  refine ⟨rfl, ?_, ?_⟩
  · rw [show generateClaims [⟨0, 7, 0⟩] = [⟨0, 7, 0, genProof [6272] 0⟩] from rfl,
      genProof_single]
  · show buildRoot (leavesOf [⟨0, 7, 0⟩]) = hashLeaf 0 7 0
    rw [show leavesOf [⟨0, 7, 0⟩] = [hashLeaf 0 7 0] from rfl, buildRoot_single]

/-- C8 (amended): the Builder performs no input validation at all: for every
input list — empty lists, zero amounts and duplicate entries included —
`generateMerkleTree` totals and returns one proof per allocation, carrying
each allocation's fields through unchanged; the ingestion step drops only
rows with a missing address or amount field. -/
theorem claim8_no_validation (l : List Alloc) :
    (generateClaims l).length = l.length ∧
    (generateClaims l).map (fun cd => (cd.index, cd.account, cd.amount)) =
      l.map (fun a => (a.index, a.account, a.amount)) := by
  constructor
  · simp [generateClaims]
  · simp [generateClaims, List.map_map]

/-- C9: for every ledger instance the constructor creates, the claim
deadline and the reclaim-unlock time are the same instant — both are
creation time plus 7 days (604800 seconds) — and no reachable transaction
changes either; consequently at the shared instant (the deadline itself)
the claim-window check `t ≤ claimDeadline` and the withdrawal check
`unlockTimestamp ≤ t` are simultaneously satisfied. -/
theorem claim9_deadline_equals_unlock (nowTime tokenAddr ownerAddr root : Nat)
    (uri : String) (total : Nat) (led : Ledger)
    (h : mkLedger nowTime tokenAddr ownerAddr root uri total = some led) :
    led.claimDeadline = nowTime + 7 * 86400 ∧
    led.unlockTimestamp = nowTime + 7 * 86400 ∧
    (∀ led2, Reach led led2 →
      led2.claimDeadline = led.claimDeadline ∧
      led2.unlockTimestamp = led.unlockTimestamp) ∧
    led.claimDeadline ≤ led.claimDeadline ∧
    led.unlockTimestamp ≤ led.claimDeadline := by
  unfold mkLedger at h
  split_ifs at h
  have he := (Option.some.inj h).symm
  subst he
  refine ⟨rfl, rfl, ?_, le_refl _, le_refl _⟩
  intro led2 hr
  have hi := reach_immutable hr
  exact ⟨hi.2.2.2.2.2.1, hi.2.2.2.2.2.2⟩

/-- Fresh ledger produced by the constructor at time 0, used as a concrete
instantiation point. -/
def w9Ledger : Ledger :=
  { token := 1, owner := 9, merkleRoot := 5, metadataURI := "",
    totalAmount := 5, claimDeadline := 604800, unlockTimestamp := 604800,
    claimedBitMap := fun _ => 0, balance := 0, events := [] }

/-- Witness for C9 at a concrete constructor call. -/
theorem claim9_witness :
    w9Ledger.claimDeadline = 0 + 7 * 86400 ∧
    w9Ledger.unlockTimestamp = 0 + 7 * 86400 ∧
    (∀ led2, Reach w9Ledger led2 →
      led2.claimDeadline = w9Ledger.claimDeadline ∧
      led2.unlockTimestamp = w9Ledger.unlockTimestamp) ∧
    w9Ledger.claimDeadline ≤ w9Ledger.claimDeadline ∧
    w9Ledger.unlockTimestamp ≤ w9Ledger.claimDeadline :=
  claim9_deadline_equals_unlock 0 1 9 5 "" 5 w9Ledger (by rfl)

/-- C1 (amended): inclusion soundness.  Take a committed allocation list
(the ingestion pipeline assigns dense indices in row order) **in which every
amount is positive**, and a ledger instance created and funded through the
factory with the Builder's root and the Builder's total, that has **processed
only claim transactions since creation** (so it still holds the Builder's
funding less the amounts already claimed).  Then the first claim for any
allocation of the list — submitted by its recipient with the Builder-produced
proof at any time at or before the claim deadline — succeeds: the claimed bit
is set, the amount is transferred to the recipient (the `Claimed` record),
and every resubmission for that index, by any caller with any proof at any
time and after any further transactions, is rejected. -/
theorem claim1_inclusion_soundness
    (rows : List (Nat × Nat)) (t0 creator tokenAddr : Nat) (uri : String)
    (cb al : Nat) (s0 : Ledger) (rec : CreationRecord) (s : Ledger)
    (cd : ClaimData) (t : Nat)
    (hpos : ∀ a ∈ pipelineAllocs rows, 0 < a.amount)
    (hcreate : createAirdropAndFund t0 creator tokenAddr
      (generateRoot (pipelineAllocs rows)) uri (sumAmounts (pipelineAllocs rows))
      cb al = some (s0, rec))
    (hreach : ClaimReach s0 s)
    (hcd : cd ∈ generateClaims (pipelineAllocs rows))
    (hunclaimed : isClaimed s cd.index = false)
    (ht : t ≤ s.claimDeadline) :
    ∃ s2, claim s t cd.account cd.index cd.account cd.amount cd.proof = some s2 ∧
      isClaimed s2 cd.index = true ∧
      s2.balance = s.balance - cd.amount ∧
      s2.events.head? = some (Event.claimed cd.index cd.account cd.amount) ∧
      ∀ s3 t2 c2 a2 m2 p2, Reach s2 s3 →
        claim s3 t2 c2 cd.index a2 m2 p2 = none := by
  obtain ⟨a, haA, hcda⟩ := List.mem_map.mp hcd
  have hidx : cd.index = a.index := by rw [← hcda]
  have hacc : cd.account = a.account := by rw [← hcda]
  have hamt : cd.amount = a.amount := by rw [← hcda]
  have hprf : cd.proof = genProof (leavesOf (pipelineAllocs rows))
      ((leavesOf (pipelineAllocs rows)).indexOf (leafOf a)) := by rw [← hcda]
  obtain ⟨-, -, hroot0, -, -, -, -, hbal0, hfresh, -, -, hrootne, -, -, -, -⟩ :=
    createAirdropAndFund_eq_some hcreate
  have hne : pipelineAllocs rows ≠ [] := by
    intro hcon
    rw [hcon, generateRoot_nil] at hrootne
    exact hrootne rfl
  have hP := pipelineAllocs_pairwise rows
  have h0 : FundsCommitted (pipelineAllocs rows) s0 := by
    refine ⟨hroot0, ?_⟩
    rw [hbal0, unclaimedSum_all_fresh hfresh]
  have hinv := claimReach_preserves_fundsCommitted hne hP h0 hreach
  have hver : verify cd.proof s.merkleRoot
      (hashLeaf cd.index cd.account cd.amount) = true := by
    rw [hprf, hinv.1, hidx, hacc, hamt]
    exact builder_proof_valid (pipelineAllocs rows) a haA
  have huna : isClaimed s a.index = false := by
    rw [← hidx]
    exact hunclaimed
  have hbal : cd.amount ≤ s.balance := by
    rw [hamt, hinv.2]
    exact amount_le_unclaimedSum haA s huna
  refine ⟨claimResult s cd.index cd.account cd.amount,
    claim_eq_some_iff.mpr ⟨ht, rfl, hunclaimed, ?_, hver, hbal, rfl⟩,
    isClaimed_claimResult_self s cd.index cd.account cd.amount, rfl, rfl, ?_⟩
  · rw [hamt]
    exact hpos a haA
  · intro s3 t2 c2 a2 m2 p2 hr3
    exact claim_none_of_claimed
      (reach_claimed_mono hr3 (isClaimed_claimResult_self s cd.index cd.account cd.amount))

/-- Ledger produced by the factory for the committed list
`[(7, 0), (8, 5)]` — address 7 is allocated amount 0 at index 0 — funded
with the Builder total 5. -/
def cexLedger1 : Ledger :=
  { token := 1, owner := 9, merkleRoot := 281331745, metadataURI := "",
    totalAmount := 5, claimDeadline := 604800, unlockTimestamp := 604800,
    claimedBitMap := fun _ => 0, balance := 5, events := [] }

/-- Creation record paired with `cexLedger1`. -/
def cexRecord1 : CreationRecord :=
  { creator := 9, token := 1, merkleRoot := 281331745, metadataURI := "",
    timestamp := 0, totalAmount := 5 }

/-- Root of the committed list `[(7, 0), (8, 5)]`. -/
theorem cex1root : generateRoot (pipelineAllocs [(7, 0), (8, 5)]) = 281331745 := by
  show buildRoot (leavesOf (pipelineAllocs [(7, 0), (8, 5)])) = 281331745
  rw [show leavesOf (pipelineAllocs [(7, 0), (8, 5)]) = [6272, 11860] from rfl,
    buildRoot_pair]
  rfl

/-- C1 counterexample: a committable list can contain a zero-amount
allocation (the ingestion step keeps amount-0 rows, the Builder commits
them).  For the committed list `[(7, 0), (8, 5)]` the factory creates a
ledger holding the Builder root and the Builder total, yet the very first
claim for index 0 — by its recipient 7, with the Builder-produced proof
`[11860]`, at time 0, well before the deadline, on a fresh ledger — is
rejected by the `amount > 0` guard.  The claim as stated is therefore false
for this committed list. -/
theorem claim1_counterexample :
    createAirdropAndFund 0 9 1 (generateRoot (pipelineAllocs [(7, 0), (8, 5)])) ""
      (sumAmounts (pipelineAllocs [(7, 0), (8, 5)])) 5 5 = some (cexLedger1, cexRecord1) ∧
    (generateClaims (pipelineAllocs [(7, 0), (8, 5)]))[0]? = some ⟨0, 7, 0, [11860]⟩ ∧
    isClaimed cexLedger1 0 = false ∧
    (0 : Nat) ≤ cexLedger1.claimDeadline ∧
    claim cexLedger1 0 7 0 7 0 [11860] = none := by
  refine ⟨?_, ?_, rfl, Nat.zero_le _, rfl⟩
  · rw [cex1root]
    rfl
  · have h1 : generateClaims (pipelineAllocs [(7, 0), (8, 5)]) =
        [⟨0, 7, 0, genProof [6272, 11860] 0⟩,
         ⟨1, 8, 5, genProof [6272, 11860] 1⟩] := rfl
    rw [h1, genProof_pair_zero]
    rfl

/-- Ledger produced by the factory for the committed singleton list
`[(7, 5)]`, funded with the Builder total 5. -/
def w1Ledger : Ledger :=
  { token := 1, owner := 9, merkleRoot := 7442, metadataURI := "",
    totalAmount := 5, claimDeadline := 604800, unlockTimestamp := 604800,
    claimedBitMap := fun _ => 0, balance := 5, events := [] }

/-- Creation record paired with `w1Ledger`. -/
def w1Record : CreationRecord :=
  { creator := 9, token := 1, merkleRoot := 7442, metadataURI := "",
    timestamp := 0, totalAmount := 5 }

/-- Root of the committed singleton list `[(7, 5)]`. -/
theorem w1root : generateRoot (pipelineAllocs [(7, 5)]) = 7442 := by
  show buildRoot (leavesOf (pipelineAllocs [(7, 5)])) = 7442
  rw [show leavesOf (pipelineAllocs [(7, 5)]) = [7442] from rfl, buildRoot_single]

/-- Factory creation of `w1Ledger` from the Builder artifacts of `[(7, 5)]`. -/
theorem w1create :
    createAirdropAndFund 0 9 1 (generateRoot (pipelineAllocs [(7, 5)])) ""
      (sumAmounts (pipelineAllocs [(7, 5)])) 5 5 = some (w1Ledger, w1Record) := by
  rw [w1root]
  rfl

/-- Builder claims blob for the committed singleton list `[(7, 5)]`. -/
theorem w1claims : generateClaims (pipelineAllocs [(7, 5)]) = [⟨0, 7, 5, []⟩] := by
  rw [show generateClaims (pipelineAllocs [(7, 5)]) =
    [⟨0, 7, 5, genProof [7442] 0⟩] from rfl, genProof_single]

/-- Witness for C1 on the committed singleton list `[(7, 5)]`: the first
claim by recipient 7 with the Builder proof succeeds on the freshly funded
ledger and the index is afterwards permanently closed. -/
theorem claim1_witness :
    ∃ s2, claim w1Ledger 0 7 0 7 5 [] = some s2 ∧
      isClaimed s2 0 = true ∧
      s2.balance = w1Ledger.balance - 5 ∧
      s2.events.head? = some (Event.claimed 0 7 5) ∧
      ∀ s3 t2 c2 a2 m2 p2, Reach s2 s3 →
        claim s3 t2 c2 0 a2 m2 p2 = none :=
  claim1_inclusion_soundness [(7, 5)] 0 9 1 "" 5 5 w1Ledger w1Record w1Ledger
    ⟨0, 7, 5, []⟩ 0 (by decide) w1create (ClaimReach.refl _)
    (by rw [w1claims]; exact List.mem_singleton.mpr rfl) rfl (Nat.zero_le _)

end Airdrop
